import Mathlib

/-!
Verification development for the gpaw-raman-script repository.

Embedded here are:
* the group-closure helper `SemigroupTree` from `script/test_utils.py`
  (`__init__` and `compute_homomorphism`), translated loop by loop with an
  explicit fuel parameter for the `while` loop that iterates over a growing
  list; and
* a model of the symmetry-expansion engine `expand_derivs_by_symmetry`
  (the file `script/symmetry.py` is not part of the provided sources, so the
  engine is modelled from the specification, over exact rationals).
-/


variable {G H : Type}

/-- State of the `SemigroupTree.__init__` construction: the four lists built by
the Python constructor (`generator_indices`, `members`, `decomps`) plus the
`all_seen` set, modelled as a duplicate-free list of canonical forms. -/
structure SGState (G H : Type) where
  generator_indices : List Nat
  members : List G
  decomps : List (Nat ⊕ Nat × Nat)
  seen : List H
deriving DecidableEq

/-- The state at the start of `SemigroupTree.__init__`: everything empty. -/
def sgEmpty : SGState G H := ⟨[], [], [], []⟩

/-- One iteration of the first loop of `SemigroupTree.__init__`: skip the
generator when its canonical form is already in `all_seen`, otherwise record a
leaf node (`decomps` gets the generator's index `idx` in the input list). -/
def addGen [DecidableEq H] (mh : G → H) (st : SGState G H) (idx : Nat) (g : G) :
    SGState G H :=
  if mh g ∈ st.seen then st
  else
    { generator_indices := st.generator_indices ++ [st.members.length]
      members := st.members ++ [g]
      decomps := st.decomps ++ [Sum.inl idx]
      seen := st.seen ++ [mh g] }

/-- The first loop of `SemigroupTree.__init__`
(`for gen_gen_index, gen in enumerate(self.generators)`). -/
def phase1 [DecidableEq H] (mh : G → H) : List G → Nat → SGState G H → SGState G H
  | [], _, st => st
  | g :: gs, idx, st => phase1 mh gs (idx + 1) (addGen mh st idx g)

/-- The inner `while rhs_node_index < len(self.members)` loop of
`SemigroupTree.__init__`.  The Python loop iterates over a list that grows
during iteration; the fuel parameter charges one unit per iteration. -/
def innerLoop [DecidableEq H] (func : G → G → G) (mh : G → H) (gen : G) (genNode : Nat) :
    Nat → Nat → SGState G H → SGState G H
  | 0, _, st => st
  | fuel + 1, i, st =>
    if h : i < st.members.length then
      let product := func gen st.members[i]
      let st' :=
        if mh product ∈ st.seen then st
        else
          { st with
            members := st.members ++ [product]
            decomps := st.decomps ++ [Sum.inr (genNode, i)]
            seen := st.seen ++ [mh product] }
      innerLoop func mh gen genNode fuel (i + 1) st'
    else st

/-- The second loop of `SemigroupTree.__init__`
(`for gen_node_index, gen in zip(self.generator_indices, self.generators)`). -/
def outerLoop [DecidableEq H] (func : G → G → G) (mh : G → H) (fuel : Nat) :
    List (Nat × G) → SGState G H → SGState G H
  | [], st => st
  | p :: ps, st => outerLoop func mh fuel ps (innerLoop func mh p.2 p.1 fuel 0 st)

/-- `SemigroupTree.__init__(generators, func, make_hashable)`.  Note the early
return for an empty generator list, and that the second loop iterates over
`zip(self.generator_indices, self.generators)` exactly as the Python does. -/
def semigroupTreeInit [DecidableEq H] (gens : List G) (func : G → G → G) (mh : G → H)
    (fuel : Nat) : SGState G H :=
  if gens.isEmpty then sgEmpty
  else
    let st1 := phase1 mh gens 0 sgEmpty
    outerLoop func mh fuel (st1.generator_indices.zip gens) st1

/-- Helper for `compute_homomorphism`: process the decomposition list in stored
order, accumulating the output list `out`.  List indexing (`out[a_index]`,
`out[b_index]`, `self.generators[gen_index]`) is fallible in Python
(`IndexError`), hence the `Option` result. -/
def homAux {H2 : Type} (gens : List G) (getGen : Nat → G → H2) (compose : H2 → H2 → H2) :
    List (Nat ⊕ Nat × Nat) → List H2 → Option (List H2)
  | [], out => some out
  | Sum.inl gi :: ds, out =>
    match gens.get? gi with
    | some g => homAux gens getGen compose ds (out ++ [getGen gi g])
    | none => none
  | Sum.inr (a, b) :: ds, out =>
    match out.get? a, out.get? b with
    | some x, some y => homAux gens getGen compose ds (out ++ [compose x y])
    | _, _ => none

/-- `SemigroupTree.compute_homomorphism(get_generator, compose)`. -/
def computeHomomorphism {H2 : Type} (gens : List G) (decomps : List (Nat ⊕ Nat × Nat))
    (getGen : Nat → G → H2) (compose : H2 → H2 → H2) : Option (List H2) :=
  homAux gens getGen compose decomps []

/-- The generator-index tag of a leaf decomposition node, if it is one. -/
def leafTag : Nat ⊕ Nat × Nat → Option Nat
  | Sum.inl i => some i
  | Sum.inr _ => none

/-- The leaf tags of a state's decomposition list, in order. -/
def leafTags (st : SGState G H) : List Nat := st.decomps.filterMap leafTag

/-- The closure of the generator list under left application of generators:
the set of elements the construction can ever reach. -/
inductive InClosure (gens : List G) (func : G → G → G) : G → Prop where
  | gen : ∀ g, g ∈ gens → InClosure gens func g
  | app : ∀ g x, g ∈ gens → InClosure gens func x → InClosure gens func (func g x)

/-- The tree built from generators `[0, 0, 1]` (a duplicated generator `0`
followed by a distinct generator `1`) under addition modulo 3, with the
identity as canonicalization.  Fuel 12 is more than the loops consume. -/
def c1Tree : SGState Nat Nat :=
  semigroupTreeInit [0, 0, 1] (fun a b => (a + b) % 3) (fun x => x) 12

/-- The tree built from generators `[0, 0, 1, 2]` under addition modulo 4,
with the identity as canonicalization. -/
def c2Tree : SGState Nat Nat :=
  semigroupTreeInit [0, 0, 1, 2] (fun a b => (a + b) % 4) (fun x => x) 20

/-- Invariant: `all_seen` is exactly the list of canonical forms of `members`,
without duplicates. -/
def SeenInv (mh : G → H) (st : SGState G H) : Prop :=
  st.seen = st.members.map mh ∧ st.seen.Nodup

/-- Position-dependent bounds on a decomposition list: every leaf tag is a
valid index into the generator list, and every binary node references strictly
earlier positions. -/
def DecompsBounded (nGens : Nat) (ds : List (Nat ⊕ Nat × Nat)) : Prop :=
  ∀ k d, ds.get? k = some d →
    (∀ gi, d = Sum.inl gi → gi < nGens) ∧
    (∀ a b, d = Sum.inr (a, b) → a < k ∧ b < k)

/-- Structural invariant of the construction: `decomps` and `members` have the
same length, every stored generator node index is a valid member index, and
the decomposition list satisfies `DecompsBounded`. -/
def TreeInv (nGens : Nat) (st : SGState G H) : Prop :=
  st.decomps.length = st.members.length ∧
  (∀ n ∈ st.generator_indices, n < st.members.length) ∧
  DecompsBounded nGens st.decomps

/-- Invariant for the termination argument: the seen-set bookkeeping is exact
and every stored member belongs to the closure of the generators. -/
def ClosInv (gens : List G) (func : G → G → G) (mh : G → H) (st : SGState G H) : Prop :=
  SeenInv mh st ∧ ∀ m ∈ st.members, InClosure gens func m

/-- Modelled from the spec: a Cartesian 3-vector, over exact rationals (the
missing `script/symmetry.py` uses floating point; the model is exact). -/
structure V3 where
  x : ℚ
  y : ℚ
  z : ℚ
deriving DecidableEq

/-- Modelled from the spec: a 3×3 Cartesian rotation matrix, stored by rows. -/
structure M3 where
  r0 : V3
  r1 : V3
  r2 : V3
deriving DecidableEq

def dot3 (a b : V3) : ℚ := a.x * b.x + a.y * b.y + a.z * b.z

def matVec (m : M3) (v : V3) : V3 := ⟨dot3 m.r0 v, dot3 m.r1 v, dot3 m.r2 v⟩

def col0 (m : M3) : V3 := ⟨m.r0.x, m.r1.x, m.r2.x⟩

def col1 (m : M3) : V3 := ⟨m.r0.y, m.r1.y, m.r2.y⟩

def col2 (m : M3) : V3 := ⟨m.r0.z, m.r1.z, m.r2.z⟩

def matMul (a b : M3) : M3 :=
  ⟨⟨dot3 a.r0 (col0 b), dot3 a.r0 (col1 b), dot3 a.r0 (col2 b)⟩,
   ⟨dot3 a.r1 (col0 b), dot3 a.r1 (col1 b), dot3 a.r1 (col2 b)⟩,
   ⟨dot3 a.r2 (col0 b), dot3 a.r2 (col1 b), dot3 a.r2 (col2 b)⟩⟩

def det3 (m : M3) : ℚ :=
  m.r0.x * (m.r1.y * m.r2.z - m.r1.z * m.r2.y)
    - m.r0.y * (m.r1.x * m.r2.z - m.r1.z * m.r2.x)
    + m.r0.z * (m.r1.x * m.r2.y - m.r1.y * m.r2.x)

/-- Inverse of a 3×3 matrix via the adjugate; meaningful when `det3 m ≠ 0`. -/
def matInv (m : M3) : M3 :=
  let d := det3 m
  ⟨⟨(m.r1.y * m.r2.z - m.r1.z * m.r2.y) / d,
    -(m.r0.y * m.r2.z - m.r0.z * m.r2.y) / d,
    (m.r0.y * m.r1.z - m.r0.z * m.r1.y) / d⟩,
   ⟨-(m.r1.x * m.r2.z - m.r1.z * m.r2.x) / d,
    (m.r0.x * m.r2.z - m.r0.z * m.r2.x) / d,
    -(m.r0.x * m.r1.z - m.r0.z * m.r1.x) / d⟩,
   ⟨(m.r1.x * m.r2.y - m.r1.y * m.r2.x) / d,
    -(m.r0.x * m.r2.y - m.r0.y * m.r2.x) / d,
    (m.r0.x * m.r1.y - m.r0.y * m.r1.x) / d⟩⟩

def vecAdd (a b : V3) : V3 := ⟨a.x + b.x, a.y + b.y, a.z + b.z⟩

def vecSMul (c : ℚ) (a : V3) : V3 := ⟨c * a.x, c * a.y, c * a.z⟩

/-- Modelled from the spec: the gradient of a response value with respect to
the three Cartesian displacement components of one atom. -/
structure Grad (V : Type) where
  gx : V
  gy : V
  gz : V
deriving DecidableEq

/-- Modelled from the spec: the response-quantity callback capability —
accumulate (via `add`/`smul`/`zero`) and rotate. -/
structure ValOps (V : Type) where
  add : V → V → V
  smul : ℚ → V → V
  zero : V
  rotate : M3 → V → V

/-- Modelled from the spec: `GeneralArrayCallbacks([])` — a scalar response
with no tensor axes; rotation is the identity on the value. -/
def scalarOps : ValOps ℚ := ⟨fun a b => a + b, fun c v => c * v, 0, fun _ v => v⟩

/-- Modelled from the spec: `GeneralArrayCallbacks(['cart'])` — a 3-vector
response with one tensor axis, contracted with the rotation matrix. -/
def cartVecOps : ValOps V3 := ⟨vecAdd, vecSMul, ⟨0, 0, 0⟩, matVec⟩

/-- Modelled from the spec: all samples that the full-group operations
transport onto atom `t`: an operation `(R, perm)` carries a sample
`(a, d, v)` with `perm[a] = t` to the sample `(R d, rotate R v)` at `t`. -/
def symSamples {V : Type} (vo : ValOps V) :
    List (M3 × List Nat) → List (Nat × V3 × V) → Nat → List (V3 × V)
  | [], _, _ => []
  | op :: rest, samples, t =>
    (samples.filterMap fun s =>
      if op.2.get? s.1 = some t then some (matVec op.1 s.2.1, vo.rotate op.1 s.2.2)
      else none) ++ symSamples vo rest samples t

def outerSelf (d : V3) : M3 := ⟨vecSMul d.x d, vecSMul d.y d, vecSMul d.z d⟩

def matAdd (a b : M3) : M3 := ⟨vecAdd a.r0 b.r0, vecAdd a.r1 b.r1, vecAdd a.r2 b.r2⟩

def zeroM3 : M3 := ⟨⟨0, 0, 0⟩, ⟨0, 0, 0⟩, ⟨0, 0, 0⟩⟩

/-- The normal matrix `Aᵀ A` of the least-squares design whose rows are the
displacement vectors. -/
def normalMat {V : Type} : List (V3 × V) → M3
  | [] => zeroM3
  | (d, _) :: rest => matAdd (outerSelf d) (normalMat rest)

/-- The right-hand side `Aᵀ b` of the normal equations, one value-typed
component per Cartesian direction. -/
def rhsGrad {V : Type} (vo : ValOps V) : List (V3 × V) → Grad V
  | [] => ⟨vo.zero, vo.zero, vo.zero⟩
  | (d, v) :: rest =>
    let r := rhsGrad vo rest
    ⟨vo.add (vo.smul d.x v) r.gx, vo.add (vo.smul d.y v) r.gy,
      vo.add (vo.smul d.z v) r.gz⟩

def lincomb {V : Type} (vo : ValOps V) (r : V3) (b : Grad V) : V :=
  vo.add (vo.smul r.x b.gx) (vo.add (vo.smul r.y b.gy) (vo.smul r.z b.gz))

/-- Modelled from the spec: the per-site least-squares solve of
`expand_derivs_by_symmetry` (spec §4.2 step 2), by the normal equations; a
singular system is the "insufficient displacement data" error. -/
def lsqSolve {V : Type} (vo : ValOps V) (ss : List (V3 × V)) : Except String (Grad V) :=
  let m := normalMat ss
  if det3 m = 0 then Except.error "insufficient displacement data"
  else
    let mi := matInv m
    let b := rhsGrad vo ss
    Except.ok ⟨lincomb vo mi.r0 b, lincomb vo mi.r1 b, lincomb vo mi.r2 b⟩

/-- Modelled from the spec: transport of a gradient along a full-group
operation — the outer (displacement) axis contracts with the rotation and each
component is rotated by the callback's rule (spec §4.2 step 3, §4.2 rotation
contract). -/
def rotateGrad {V : Type} (vo : ValOps V) (R : M3) (g : Grad V) : Grad V :=
  let h : Grad V := ⟨vo.rotate R g.gx, vo.rotate R g.gy, vo.rotate R g.gz⟩
  ⟨lincomb vo R.r0 h, lincomb vo R.r1 h, lincomb vo R.r2 h⟩

/-- The distinct sampled atoms, in order of first appearance. -/
def dedupAtoms : List Nat → List Nat → List Nat
  | [], _ => []
  | a :: rest, seen =>
    if a ∈ seen then dedupAtoms rest seen else a :: dedupAtoms rest (a :: seen)

def sampledAtoms {V : Type} (samples : List (Nat × V3 × V)) : List Nat :=
  dedupAtoms (samples.map (fun s => s.1)) []

/-- Whether atom `t` is the image of some sampled atom under some permutation. -/
def coveredB (perms : List (List Nat)) (reps : List Nat) (t : Nat) : Bool :=
  perms.any fun p => reps.any fun r => p.get? r == some t

/-- Modelled from the spec: the first quotient-group permutation (in
caller-supplied order) mapping a sampled representative onto `t`, with that
representative. -/
def findQuotientCover : List (List Nat) → List Nat → Nat → Option (List Nat × Nat)
  | [], _, _ => none
  | p :: rest, reps, t =>
    match reps.find? (fun r => p.get? r == some t) with
    | some r => some (p, r)
    | none => findQuotientCover rest reps t

/-- Modelled from the spec: the first full-group operation mapping a sampled
representative onto `t`, with that representative. -/
def findFullCover : List (M3 × List Nat) → List Nat → Nat → Option ((M3 × List Nat) × Nat)
  | [], _, _ => none
  | op :: rest, reps, t =>
    match reps.find? (fun r => op.2.get? r == some t) with
    | some r => some (op, r)
    | none => findFullCover rest reps t

/-- Modelled from the spec: the gradient assigned to atom `t` (spec §4.2
steps 2–3): sampled atoms are solved from the symmetry-transported samples;
unsampled atoms first search the quotient group (pure copy of the
representative's gradient, no rotation), then the full group (rotated copy). -/
def atomDeriv {V : Type} (vo : ValOps V) (samples : List (Nat × V3 × V))
    (ops : List (M3 × List Nat)) (qps : List (List Nat)) (t : Nat) :
    Except String (Grad V) :=
  let reps := sampledAtoms samples
  if t ∈ reps then lsqSolve vo (symSamples vo ops samples t)
  else
    match findQuotientCover qps reps t with
    | some (_, r) => lsqSolve vo (symSamples vo ops samples r)
    | none =>
      match findFullCover ops reps t with
      | some (op, r) =>
        match lsqSolve vo (symSamples vo ops samples r) with
        | Except.error e => Except.error e
        | Except.ok g => Except.ok (rotateGrad vo op.1 g)
      | none => Except.error "symmetry coverage incomplete"

def buildOut {V : Type} (f : Nat → Except String (Grad V)) :
    List Nat → Except String (List (Grad V))
  | [] => Except.ok []
  | t :: ts =>
    match f t with
    | Except.error e => Except.error e
    | Except.ok g =>
      match buildOut f ts with
      | Except.error e => Except.error e
      | Except.ok gs => Except.ok (g :: gs)

/-- Modelled from the spec: `expand_derivs_by_symmetry` from the missing
`script/symmetry.py` (spec §4.2).  Coverage is checked first: an atom that is
the image of no sampled atom under any quotient or full-group operation is the
fatal "symmetry coverage incomplete" error (spec §4.2 step 5, §7). -/
def expandDerivs {V : Type} (vo : ValOps V) (natoms : Nat)
    (samples : List (Nat × V3 × V)) (ops : List (M3 × List Nat))
    (quotientPerms : Option (List (List Nat))) : Except String (List (Grad V)) :=
  let reps := sampledAtoms samples
  let qps := quotientPerms.getD []
  if (List.range natoms).all (fun t => coveredB (qps ++ ops.map (fun op => op.2)) reps t) then
    buildOut (atomDeriv vo samples ops qps) (List.range natoms)
  else Except.error "symmetry coverage incomplete"

/-- The `x -> y -> z -> x` rotation generator used by the tests
(`grouptree_rotation_xyz` in `tests/test_symmetry.py`). -/
def rotXYZ : M3 := ⟨⟨0, 0, 1⟩, ⟨1, 0, 0⟩, ⟨0, 1, 0⟩⟩

/-- The 3-fold rotation group as the tests build it: the members of the
`SemigroupTree` generated by `rotXYZ` under matrix multiplication. -/
def c3Rots : List M3 := (semigroupTreeInit [rotXYZ] matMul (fun m => m) 10).members

/-- The single-atom symmetry of `sym_xyz_1_atom`: every rotation with the
one-atom identity permutation. -/
def c3Ops : List (M3 × List Nat) := c3Rots.map (fun r => (r, [0]))

/-- The displacement samples of `test_general_array_vec`. -/
def c3Samples : List (Nat × V3 × V3) :=
  [(0, ⟨1/10, 0, 0⟩, ⟨1, 0, 0⟩), (0, ⟨-1/10, 0, 0⟩, ⟨-1, 0, 0⟩)]

/-- Composition of permutations-as-arrays as the tests do it
(`compose_perm(a, b) = b[a]`, i.e. `c[i] = b[a[i]]`). -/
def composePerm (a b : List Nat) : List Nat := a.map (fun i => b.getD i 0)

/-- The quotient permutations of `sym_quotient_translational_010101`: the
members of the `SemigroupTree` generated by the translation `[2,3,4,5,0,1]`. -/
def c5QuotientPerms : List (List Nat) :=
  (semigroupTreeInit [[2, 3, 4, 5, 0, 1]] composePerm (fun p => p) 10).members

def idM3 : M3 := ⟨⟨1, 0, 0⟩, ⟨0, 1, 0⟩, ⟨0, 0, 1⟩⟩

/-- The trivial spacegroup of `sym_quotient_translational_010101`: the identity
rotation with the identity permutation of the 6 atoms. -/
def c5Ops : List (M3 × List Nat) := [(idM3, [0, 1, 2, 3, 4, 5])]

/-- The displacement samples of `test_pure_translation`. -/
def c5Samples : List (Nat × V3 × ℚ) :=
  [(0, ⟨1/10, 0, 0⟩, 1), (0, ⟨-1/10, 0, 0⟩, -1),
   (0, ⟨0, 1/10, 0⟩, 2), (0, ⟨0, -1/10, 0⟩, -2),
   (0, ⟨0, 0, 1/10⟩, 3), (0, ⟨0, 0, -1/10⟩, -3),
   (1, ⟨1/10, 0, 0⟩, 4), (1, ⟨-1/10, 0, 0⟩, -4),
   (1, ⟨0, 1/10, 0⟩, 5), (1, ⟨0, -1/10, 0⟩, -5),
   (1, ⟨0, 0, 1/10⟩, 6), (1, ⟨0, 0, -1/10⟩, -6)]

deriving instance DecidableEq for Except

lemma seenInv_empty (mh : G → H) : SeenInv mh (sgEmpty : SGState G H) :=
  ⟨rfl, List.nodup_nil⟩

lemma addGen_seenInv [DecidableEq H] (mh : G → H) (st : SGState G H) (idx : Nat) (g : G)
    (hst : SeenInv mh st) : SeenInv mh (addGen mh st idx g) := by
  unfold addGen
  split
  · exact hst
  · refine ⟨by simp [hst.1], ?_⟩
    simp only [List.nodup_append, List.nodup_cons, List.nodup_nil]
    refine ⟨hst.2, by simp, ?_⟩
    intro a ha hb
    simp only [List.mem_singleton] at hb
    subst hb
    exact (by assumption : ¬ mh g ∈ st.seen) ha

lemma phase1_seenInv [DecidableEq H] (mh : G → H) :
    ∀ (gs : List G) (idx : Nat) (st : SGState G H), SeenInv mh st →
      SeenInv mh (phase1 mh gs idx st)
  | [], _, _, hst => hst
  | _ :: gs, idx, st, hst =>
    phase1_seenInv mh gs (idx + 1) _ (addGen_seenInv mh st idx _ hst)

lemma innerLoop_seenInv [DecidableEq H] (func : G → G → G) (mh : G → H) (gen : G)
    (genNode : Nat) :
    ∀ (fuel i : Nat) (st : SGState G H), SeenInv mh st →
      SeenInv mh (innerLoop func mh gen genNode fuel i st)
  | 0, _, _, hst => hst
  | fuel + 1, i, st, hst => by
    unfold innerLoop
    split
    · apply innerLoop_seenInv func mh gen genNode fuel
      split
      · exact hst
      · refine ⟨by simp [hst.1], ?_⟩
        simp only [List.nodup_append, List.nodup_cons, List.nodup_nil]
        refine ⟨hst.2, by simp, ?_⟩
        intro a ha hb
        simp only [List.mem_singleton] at hb
        subst hb
        exact (by assumption : ¬ _ ∈ st.seen) ha
    · exact hst

lemma outerLoop_seenInv [DecidableEq H] (func : G → G → G) (mh : G → H) (fuel : Nat) :
    ∀ (ps : List (Nat × G)) (st : SGState G H), SeenInv mh st →
      SeenInv mh (outerLoop func mh fuel ps st)
  | [], _, hst => hst
  | p :: ps, st, hst =>
    outerLoop_seenInv func mh fuel ps _
      (innerLoop_seenInv func mh p.2 p.1 fuel 0 st hst)

lemma init_seenInv [DecidableEq H] (gens : List G) (func : G → G → G) (mh : G → H)
    (fuel : Nat) : SeenInv mh (semigroupTreeInit gens func mh fuel) := by
  unfold semigroupTreeInit
  split
  · exact seenInv_empty mh
  · exact outerLoop_seenInv func mh fuel _ _
      (phase1_seenInv mh gens 0 sgEmpty (seenInv_empty mh))

/-- C9: For the empty generator sequence and any operation and canonicalization
function, `SemigroupTree.__init__` produces an empty closure: the members list,
the decomps list, and the generator_indices list are all empty. -/
theorem C9_empty_generators [DecidableEq H] (func : G → G → G) (mh : G → H) (fuel : Nat) :
    (semigroupTreeInit [] func mh fuel).members = [] ∧
    (semigroupTreeInit [] func mh fuel).decomps = [] ∧
    (semigroupTreeInit [] func mh fuel).generator_indices = [] :=
  ⟨rfl, rfl, rfl⟩

/-- C10: For every input to `SemigroupTree.__init__`, the canonical forms of
the elements of the resulting members list are pairwise distinct: no element is
ever stored twice. -/
theorem C10_members_distinct [DecidableEq H] (gens : List G) (func : G → G → G)
    (mh : G → H) (fuel : Nat) :
    ((semigroupTreeInit gens func mh fuel).members.map mh).Nodup := by
  have h := init_seenInv gens func mh fuel
  exact h.1 ▸ h.2

/-- C1: the claim that the member list is closed under every generator of the
input list fails on the code.  With generators `[0, 0, 1]` under addition
modulo 3 (identity canonicalization, which faithfully identifies equal
elements), the construction ends with members `[0, 1]`: the second loop
iterates `zip(generator_indices, generators) = [(0, 0), (1, 0)]`, so the
generator `1` is never applied, and its product `(1 + 1) % 3 = 2` is missing
from the members.  The fuel-stability conjunct shows the loops have reached
their fixed point, i.e. this is the state the terminating Python run ends in. -/
theorem C1_closure_violation :
    c1Tree.members = [0, 1] ∧
    c1Tree = semigroupTreeInit [0, 0, 1] (fun a b => (a + b) % 3) (fun x => x) 13 ∧
    [0, 0, 1].contains 1 = true ∧
    c1Tree.members.contains 1 = true ∧
    ((1 + 1) % 3 : Nat) = 2 ∧
    (c1Tree.members.map (fun x => x)).contains 2 = false := by
  decide

/-- C2: the claim that every binary decomposition entry `(left, right)` at
member position `k` satisfies `members[k] = func(members[left], members[right])`
(and that replaying the trivial homomorphism reproduces the members) fails on
the code.  With generators `[0, 0, 1, 2]` under addition modulo 4, the second
loop iterates `zip([0, 1, 2], [0, 0, 1, 2]) = [(0, 0), (1, 0), (2, 1)]`: the
generator `1` is applied while the recorded node index `2` names the member
`2`, so member `3 = (1 + 2) % 4` is stored with decomposition `(2, 2)` even
though `(members[2] + members[2]) % 4 = 0 ≠ 3`, and the homomorphism replay
returns `[0, 1, 2, 0]` instead of the members `[0, 1, 2, 3]`. -/
theorem C2_decomp_violation :
    c2Tree.members = [0, 1, 2, 3] ∧
    c2Tree.decomps = [Sum.inl 0, Sum.inl 2, Sum.inl 3, Sum.inr (2, 2)] ∧
    c2Tree = semigroupTreeInit [0, 0, 1, 2] (fun a b => (a + b) % 4) (fun x => x) 21 ∧
    ((2 + 2) % 4 : Nat) = 0 ∧
    computeHomomorphism [0, 0, 1, 2] c2Tree.decomps (fun _ g => g)
      (fun a b => (a + b) % 4) = some [0, 1, 2, 0] := by
  decide

/-- Unfolding equation for one iteration of `innerLoop` with the local
`let`-bindings reduced. -/
lemma innerLoop_succ [DecidableEq H] (func : G → G → G) (mh : G → H) (gen : G)
    (genNode fuel i : Nat) (st : SGState G H) :
    innerLoop func mh gen genNode (fuel + 1) i st =
      if h : i < st.members.length then
        innerLoop func mh gen genNode fuel (i + 1)
          (if mh (func gen st.members[i]) ∈ st.seen then st
           else
             { st with
               members := st.members ++ [func gen st.members[i]]
               decomps := st.decomps ++ [Sum.inr (genNode, i)]
               seen := st.seen ++ [mh (func gen st.members[i])] })
      else st := rfl

lemma decompsBounded_append_leaf {nGens : Nat} {ds : List (Nat ⊕ Nat × Nat)} {gi : Nat}
    (hds : DecompsBounded nGens ds) (hgi : gi < nGens) :
    DecompsBounded nGens (ds ++ [Sum.inl gi]) := by
  intro k d hk
  rcases lt_trichotomy k ds.length with h | h | h
  · exact hds k d (by rwa [List.get?_append h] at hk)
  · subst h
    rw [List.get?_concat_length] at hk
    cases hk
    constructor
    · intro gi' hgi'
      cases hgi'
      exact hgi
    · intro a b hab
      cases hab
  · rw [List.get?_eq_none.2 (by simp; omega)] at hk
    cases hk

lemma decompsBounded_append_node {nGens : Nat} {ds : List (Nat ⊕ Nat × Nat)} {a b : Nat}
    (hds : DecompsBounded nGens ds) (ha : a < ds.length) (hb : b < ds.length) :
    DecompsBounded nGens (ds ++ [Sum.inr (a, b)]) := by
  intro k d hk
  rcases lt_trichotomy k ds.length with h | h | h
  · exact hds k d (by rwa [List.get?_append h] at hk)
  · subst h
    rw [List.get?_concat_length] at hk
    cases hk
    constructor
    · intro gi' hgi'
      cases hgi'
    · intro a' b' hab
      cases hab
      exact ⟨ha, hb⟩
  · rw [List.get?_eq_none.2 (by simp; omega)] at hk
    cases hk

lemma treeInv_empty (nGens : Nat) : TreeInv nGens (sgEmpty : SGState G H) :=
  ⟨rfl, by simp [sgEmpty], fun k d hk => by cases hk⟩

lemma addGen_treeInv [DecidableEq H] {nGens : Nat} (mh : G → H) (st : SGState G H)
    (idx : Nat) (g : G) (hidx : idx < nGens) (hst : TreeInv nGens st) :
    TreeInv nGens (addGen mh st idx g) := by
  unfold addGen
  split
  · exact hst
  · refine ⟨by simp [hst.1], ?_, decompsBounded_append_leaf hst.2.2 hidx⟩
    intro n hn
    simp only [List.mem_append, List.mem_singleton] at hn
    rcases hn with hn | hn
    · have := hst.2.1 n hn
      simp only [List.length_append, List.length_singleton]
      omega
    · simp [hn]

lemma phase1_treeInv [DecidableEq H] {nGens : Nat} (mh : G → H) :
    ∀ (gs : List G) (idx : Nat) (st : SGState G H), idx + gs.length ≤ nGens →
      TreeInv nGens st → TreeInv nGens (phase1 mh gs idx st)
  | [], _, _, _, hst => hst
  | _ :: gs, idx, st, hlen, hst => by
    simp only [List.length_cons] at hlen
    exact phase1_treeInv mh gs (idx + 1) _ (by omega)
      (addGen_treeInv mh st idx _ (by omega) hst)

lemma innerLoop_members_mono [DecidableEq H] (func : G → G → G) (mh : G → H) (gen : G)
    (genNode : Nat) :
    ∀ (fuel i : Nat) (st : SGState G H),
      st.members.length ≤ (innerLoop func mh gen genNode fuel i st).members.length
  | 0, _, _ => le_refl _
  | fuel + 1, i, st => by
    rw [innerLoop_succ]
    split
    · split
      · exact innerLoop_members_mono func mh gen genNode fuel (i + 1) st
      · refine le_trans ?_ (innerLoop_members_mono func mh gen genNode fuel (i + 1) _)
        simp
    · exact le_refl _

lemma innerLoop_treeInv [DecidableEq H] {nGens : Nat} (func : G → G → G) (mh : G → H)
    (gen : G) :
    ∀ (genNode fuel i : Nat) (st : SGState G H), genNode < st.members.length →
      TreeInv nGens st → TreeInv nGens (innerLoop func mh gen genNode fuel i st)
  | _, 0, _, _, _, hst => hst
  | genNode, fuel + 1, i, st, hnode, hst => by
    rw [innerLoop_succ]
    split
    · rename_i hlt
      split
      · exact innerLoop_treeInv func mh gen genNode fuel (i + 1) st hnode hst
      · refine innerLoop_treeInv func mh gen genNode fuel (i + 1) _ (by simp; omega) ?_
        refine ⟨by simp [hst.1], ?_, ?_⟩
        · intro n hn
          have := hst.2.1 n hn
          simp only [List.length_append, List.length_singleton]
          omega
        · exact decompsBounded_append_node hst.2.2 (by rw [hst.1]; exact hnode)
            (by rw [hst.1]; exact hlt)
    · exact hst

lemma outerLoop_treeInv [DecidableEq H] {nGens : Nat} (func : G → G → G) (mh : G → H)
    (fuel : Nat) :
    ∀ (ps : List (Nat × G)) (st : SGState G H),
      (∀ p ∈ ps, p.1 < st.members.length) → TreeInv nGens st →
      TreeInv nGens (outerLoop func mh fuel ps st)
  | [], _, _, hst => hst
  | p :: ps, st, hps, hst => by
    refine outerLoop_treeInv func mh fuel ps _ ?_
      (innerLoop_treeInv func mh p.2 p.1 fuel 0 st (hps p (by simp)) hst)
    intro q hq
    exact lt_of_lt_of_le (hps q (by simp [hq]))
      (innerLoop_members_mono func mh p.2 p.1 fuel 0 st)

lemma init_treeInv [DecidableEq H] (gens : List G) (func : G → G → G) (mh : G → H)
    (fuel : Nat) : TreeInv gens.length (semigroupTreeInit gens func mh fuel) := by
  unfold semigroupTreeInit
  split
  · exact treeInv_empty _
  · have h1 : TreeInv gens.length (phase1 mh gens 0 (sgEmpty : SGState G H)) :=
      phase1_treeInv mh gens 0 sgEmpty (by omega) (treeInv_empty _)
    refine outerLoop_treeInv func mh fuel _ _ ?_ h1
    intro p hp
    exact h1.2.1 p.1 (List.of_mem_zip hp).1

lemma homAux_total {H2 : Type} (gens : List G) (getGen : Nat → G → H2)
    (compose : H2 → H2 → H2) :
    ∀ (ds : List (Nat ⊕ Nat × Nat)) (out : List H2),
      (∀ k d, ds.get? k = some d →
        (∀ gi, d = Sum.inl gi → gi < gens.length) ∧
        (∀ a b, d = Sum.inr (a, b) → a < out.length + k ∧ b < out.length + k)) →
      ∃ res, homAux gens getGen compose ds out = some res ∧
        res.length = out.length + ds.length
  | [], out, _ => ⟨out, rfl, by simp⟩
  | Sum.inl gi :: ds, out, hb => by
    have hgi : gi < gens.length := (hb 0 (Sum.inl gi) rfl).1 gi rfl
    have hshift : ∀ k d, ds.get? k = some d →
        (∀ gi', d = Sum.inl gi' → gi' < gens.length) ∧
        (∀ a b, d = Sum.inr (a, b) →
          a < (out ++ [getGen gi (gens.get ⟨gi, hgi⟩)]).length + k ∧
          b < (out ++ [getGen gi (gens.get ⟨gi, hgi⟩)]).length + k) := by
      intro k d hk
      have hkd := hb (k + 1) d hk
      refine ⟨hkd.1, fun a b hab => ?_⟩
      have := hkd.2 a b hab
      simp only [List.length_append, List.length_singleton]
      omega
    obtain ⟨res, hres, hlen⟩ := homAux_total gens getGen compose ds _ hshift
    refine ⟨res, ?_, ?_⟩
    · rw [homAux, List.get?_eq_get hgi]
      exact hres
    · simp only [List.length_append, List.length_singleton] at hlen
      simp only [hlen, List.length_cons]
      omega
  | Sum.inr (a, b) :: ds, out, hb => by
    have hab := (hb 0 (Sum.inr (a, b)) rfl).2 a b rfl
    have ha : a < out.length := by omega
    have hbb : b < out.length := by omega
    have hshift : ∀ k d, ds.get? k = some d →
        (∀ gi', d = Sum.inl gi' → gi' < gens.length) ∧
        (∀ a' b', d = Sum.inr (a', b') →
          a' < (out ++ [compose (out.get ⟨a, ha⟩) (out.get ⟨b, hbb⟩)]).length + k ∧
          b' < (out ++ [compose (out.get ⟨a, ha⟩) (out.get ⟨b, hbb⟩)]).length + k) := by
      intro k d hk
      have hkd := hb (k + 1) d hk
      refine ⟨hkd.1, fun a' b' hab' => ?_⟩
      have := hkd.2 a' b' hab'
      simp only [List.length_append, List.length_singleton]
      omega
    obtain ⟨res, hres, hlen⟩ := homAux_total gens getGen compose ds _ hshift
    refine ⟨res, ?_, ?_⟩
    · rw [homAux, List.get?_eq_get ha, List.get?_eq_get hbb]
      exact hres
    · simp only [List.length_append, List.length_singleton] at hlen
      simp only [hlen, List.length_cons]
      omega

/-- C6: every binary decomposition entry `(left, right)` stored at position `k`
satisfies `left < k` and `right < k`; consequently `compute_homomorphism`,
processing the decompositions in stored order, only reads output slots that
have already been computed, so its list indexing always succeeds. -/
theorem C6_decomps_topological [DecidableEq H] (gens : List G) (func : G → G → G)
    (mh : G → H) (fuel : Nat) :
    (∀ k a b, (semigroupTreeInit gens func mh fuel).decomps.get? k =
        some (Sum.inr (a, b)) → a < k ∧ b < k) ∧
    ∀ (H2 : Type) (getGen : Nat → G → H2) (compose : H2 → H2 → H2),
      ∃ res, computeHomomorphism gens (semigroupTreeInit gens func mh fuel).decomps
          getGen compose = some res ∧
        res.length = (semigroupTreeInit gens func mh fuel).decomps.length := by
  have hinv := init_treeInv gens func mh fuel
  constructor
  · intro k a b hk
    exact (hinv.2.2 k _ hk).2 a b rfl
  · intro H2 getGen compose
    have := homAux_total gens getGen compose (semigroupTreeInit gens func mh fuel).decomps
      [] (by intro k d hk; simpa using hinv.2.2 k d hk)
    simpa [computeHomomorphism] using this

/-- Witness for C6: at the tree generated by `[1]` under addition modulo 3, the
binary decomposition at position 2 is `(0, 1)` with both indices smaller than
2, and the homomorphism replay succeeds with one output per decomposition. -/
theorem C6_decomps_topological_witness :
    (0 < 2 ∧ 1 < 2) ∧
      ∃ res, computeHomomorphism [1]
          (semigroupTreeInit [1] (fun a b => (a + b) % 3) (fun x : Nat => x) 9).decomps
          (fun _ g => g) (fun a b => (a + b) % 3) = some res ∧
        res.length =
          (semigroupTreeInit [1] (fun a b => (a + b) % 3) (fun x : Nat => x) 9).decomps.length :=
  ⟨(C6_decomps_topological [1] (fun a b => (a + b) % 3) (fun x : Nat => x) 9).1 2 0 1
      (by decide),
    (C6_decomps_topological [1] (fun a b => (a + b) % 3) (fun x : Nat => x) 9).2 Nat
      (fun _ g => g) (fun a b => (a + b) % 3)⟩

lemma mem_map_iff_get? (mh : G → H) (pre : List G) (h' : H) :
    h' ∈ pre.map mh ↔ ∃ j, j < pre.length ∧ (pre.get? j).map mh = some h' := by
  constructor
  · intro hm
    obtain ⟨a, ha, rfl⟩ := List.mem_map.1 hm
    obtain ⟨n, hn⟩ := List.mem_iff_get?.1 ha
    have hlt : n < pre.length := by
      by_contra hcon
      rw [List.get?_eq_none.2 (by omega)] at hn
      cases hn
    exact ⟨n, hlt, by rw [hn]; rfl⟩
  · rintro ⟨j, hj, hget⟩
    cases hpre : pre.get? j with
    | none => rw [hpre] at hget; cases hget
    | some a =>
      rw [hpre] at hget
      simp only [Option.map_some'] at hget
      cases hget
      exact List.mem_map.2 ⟨a, List.get?_mem hpre, rfl⟩

lemma inl_mem_iff_leafTags (ds : List (Nat ⊕ Nat × Nat)) (i : Nat) :
    Sum.inl i ∈ ds ↔ i ∈ ds.filterMap leafTag := by
  rw [List.mem_filterMap]
  constructor
  · intro hm
    exact ⟨Sum.inl i, hm, rfl⟩
  · rintro ⟨d, hd, htag⟩
    cases d with
    | inl j => cases htag; exact hd
    | inr p => cases htag

/-- The characterization of the first loop of `SemigroupTree.__init__`:
starting from a state whose `all_seen` holds exactly the canonical forms of a
prefix `pre` and whose leaves are exactly the first occurrences within `pre`,
processing `gs` yields the leaves that are first occurrences within
`pre ++ gs`. -/
lemma phase1_inl_char [DecidableEq H] (mh : G → H) :
    ∀ (gs pre : List G) (st : SGState G H),
      (∀ h', h' ∈ st.seen ↔ h' ∈ pre.map mh) →
      (∀ i, Sum.inl i ∈ st.decomps ↔
        i < pre.length ∧ ∀ j, j < i → (pre.get? j).map mh ≠ (pre.get? i).map mh) →
      ∀ i, Sum.inl i ∈ (phase1 mh gs pre.length st).decomps ↔
        i < pre.length + gs.length ∧
        ∀ j, j < i → ((pre ++ gs).get? j).map mh ≠ ((pre ++ gs).get? i).map mh
  | [], pre, st, hseen, hdec, i => by
    simpa using hdec i
  | g :: gs, pre, st, hseen, hdec, i => by
    have happ : pre ++ g :: gs = (pre ++ [g]) ++ gs := by
      simp [List.append_assoc]
    have hlen' : (pre ++ [g]).length = pre.length + 1 := by simp
    have hpreg : ∀ j, j < pre.length → (pre ++ [g]).get? j = pre.get? j := by
      intro j hj
      exact List.get?_append hj
    have hg : (pre ++ [g]).get? pre.length = some g := List.get?_concat_length pre g
    -- invariants at the extended prefix
    have hseen' : ∀ h', h' ∈ (addGen mh st pre.length g).seen ↔ h' ∈ (pre ++ [g]).map mh := by
      intro h'
      unfold addGen
      split
      · rename_i hin
        rw [hseen h'] at *
        simp only [List.map_append, List.map_cons, List.map_nil, List.mem_append,
          List.mem_singleton]
        constructor
        · intro hm
          exact Or.inl hm
        · rintro (hm | hm)
          · exact hm
          · subst hm
            exact (hseen (mh g)).1 hin
      · simp only [List.mem_append, List.mem_singleton, List.map_append, List.map_cons,
          List.map_nil, hseen h']
    have hdec' : ∀ i, Sum.inl i ∈ (addGen mh st pre.length g).decomps ↔
        i < (pre ++ [g]).length ∧
        ∀ j, j < i → ((pre ++ [g]).get? j).map mh ≠ ((pre ++ [g]).get? i).map mh := by
      intro k
      unfold addGen
      split
      · rename_i hin
        rw [hdec k, hlen']
        have hdup : ∃ j, j < pre.length ∧ (pre.get? j).map mh = some (mh g) :=
          (mem_map_iff_get? mh pre (mh g)).1 ((hseen (mh g)).1 hin)
        constructor
        · rintro ⟨hk, hcond⟩
          refine ⟨by omega, ?_⟩
          intro j hj
          rw [hpreg j (by omega), hpreg k (by omega)]
          exact hcond j hj
        · rintro ⟨hk, hcond⟩
          rcases Nat.lt_or_ge k pre.length with hk' | hk'
          · refine ⟨hk', ?_⟩
            intro j hj
            have := hcond j hj
            rwa [hpreg j (by omega), hpreg k (by omega)] at this
          · -- k = pre.length: contradicted by the duplicate
            have hkeq : k = pre.length := by omega
            subst hkeq
            obtain ⟨j, hj, hjeq⟩ := hdup
            have hcond' := hcond j hj
            rw [hpreg j hj, hg] at hcond'
            simp only [Option.map_some'] at hcond'
            exact absurd hjeq hcond'
      · rename_i hnin
        simp only [List.mem_append, List.mem_singleton, hdec k, hlen']
        constructor
        · rintro (⟨hk, hcond⟩ | hleaf)
          · refine ⟨by omega, ?_⟩
            intro j hj
            rw [hpreg j (by omega), hpreg k (by omega)]
            exact hcond j hj
          · cases hleaf
            refine ⟨by omega, ?_⟩
            intro j hj
            rw [hpreg j hj, hg]
            intro hcon
            exact hnin ((hseen (mh g)).2 ((mem_map_iff_get? mh pre (mh g)).2 ⟨j, hj, hcon⟩))
        · rintro ⟨hk, hcond⟩
          rcases Nat.lt_or_ge k pre.length with hk' | hk'
          · refine Or.inl ⟨hk', ?_⟩
            intro j hj
            have := hcond j hj
            rwa [hpreg j (by omega), hpreg k (by omega)] at this
          · have hkeq : k = pre.length := by omega
            subst hkeq
            exact Or.inr rfl
    have := phase1_inl_char mh gs (pre ++ [g]) (addGen mh st pre.length g) hseen' hdec' i
    rw [hlen'] at this
    rw [phase1]
    rw [show pre.length + 1 = (pre ++ [g]).length from hlen'.symm] at this ⊢
    rw [happ]
    simpa [Nat.add_assoc, Nat.add_comm 1 gs.length] using this

lemma innerLoop_leafTags [DecidableEq H] (func : G → G → G) (mh : G → H) (gen : G)
    (genNode : Nat) :
    ∀ (fuel i : Nat) (st : SGState G H),
      (innerLoop func mh gen genNode fuel i st).decomps.filterMap leafTag =
        st.decomps.filterMap leafTag
  | 0, _, _ => rfl
  | fuel + 1, i, st => by
    rw [innerLoop_succ]
    split
    · split
      · exact innerLoop_leafTags func mh gen genNode fuel (i + 1) st
      · rw [innerLoop_leafTags func mh gen genNode fuel (i + 1) _]
        simp [List.filterMap_append, leafTag]
    · rfl

lemma outerLoop_leafTags [DecidableEq H] (func : G → G → G) (mh : G → H) (fuel : Nat) :
    ∀ (ps : List (Nat × G)) (st : SGState G H),
      (outerLoop func mh fuel ps st).decomps.filterMap leafTag =
        st.decomps.filterMap leafTag
  | [], _ => rfl
  | p :: ps, st => by
    rw [outerLoop, outerLoop_leafTags func mh fuel ps _,
      innerLoop_leafTags func mh p.2 p.1 fuel 0 st]

lemma phase1_leafTags_nodup [DecidableEq H] (mh : G → H) :
    ∀ (gs : List G) (idx : Nat) (st : SGState G H),
      (∀ t ∈ st.decomps.filterMap leafTag, t < idx) →
      (st.decomps.filterMap leafTag).Nodup →
      ((phase1 mh gs idx st).decomps.filterMap leafTag).Nodup
  | [], _, _, _, hnd => hnd
  | g :: gs, idx, st, hbound, hnd => by
    rw [phase1]
    refine phase1_leafTags_nodup mh gs (idx + 1) _ ?_ ?_
    · intro t ht
      unfold addGen at ht
      split at ht
      · exact lt_trans (hbound t ht) (by omega)
      · simp only [List.filterMap_append] at ht
        rcases List.mem_append.1 ht with ht | ht
        · exact lt_trans (hbound t ht) (by omega)
        · simp [leafTag] at ht
          omega
    · unfold addGen
      split
      · exact hnd
      · simp only [List.filterMap_append]
        have : (List.filterMap leafTag [Sum.inl idx] : List Nat) = [idx] := rfl
        rw [this, List.nodup_append]
        refine ⟨hnd, by simp, ?_⟩
        intro t ht ht'
        simp only [List.mem_singleton] at ht'
        subst ht'
        exact absurd (hbound t ht) (by omega)

/-- C8: a generator whose canonical form collides with an earlier generator's
contributes no leaf node; the leaves are exactly one per distinct canonical
form, tagged with the index of the form's first occurrence in the input list,
and no tag occurs twice.  (The construction is total: no list access in it can
fail, so no error is ever raised.) -/
theorem C8_duplicate_generators [DecidableEq H] (gens : List G) (func : G → G → G)
    (mh : G → H) (fuel : Nat) (i j : Nat) (hj : j < i) (hi : i < gens.length)
    (hdup : (gens.get? j).map mh = (gens.get? i).map mh) :
    Sum.inl i ∉ (semigroupTreeInit gens func mh fuel).decomps ∧
    (∀ k, Sum.inl k ∈ (semigroupTreeInit gens func mh fuel).decomps ↔
      k < gens.length ∧ ∀ j', j' < k → (gens.get? j').map mh ≠ (gens.get? k).map mh) ∧
    (leafTags (semigroupTreeInit gens func mh fuel)).Nodup := by
  have hchar : ∀ k, Sum.inl k ∈ (semigroupTreeInit gens func mh fuel).decomps ↔
      k < gens.length ∧ ∀ j', j' < k → (gens.get? j').map mh ≠ (gens.get? k).map mh := by
    intro k
    unfold semigroupTreeInit
    split
    · rename_i hemp
      rw [List.isEmpty_iff] at hemp
      subst hemp
      simp [sgEmpty]
    · rw [inl_mem_iff_leafTags, outerLoop_leafTags, ← inl_mem_iff_leafTags]
      have := phase1_inl_char mh gens [] sgEmpty
        (by intro h'; simp [sgEmpty])
        (by intro k'; simp [sgEmpty])
        k
      simpa using this
  refine ⟨?_, hchar, ?_⟩
  · rw [hchar i]
    rintro ⟨-, hcond⟩
    exact hcond j hj hdup
  · unfold leafTags
    unfold semigroupTreeInit
    split
    · simp [sgEmpty]
    · rw [outerLoop_leafTags]
      exact phase1_leafTags_nodup mh gens 0 sgEmpty (by simp [sgEmpty]) (by simp [sgEmpty])

/-- Witness for C8: generators `[5, 5, 7]` with the identity canonicalization
have a duplicate at index 1; it contributes no leaf, the leaves are the first
occurrences 0 and 2, and no tag repeats. -/
theorem C8_duplicate_generators_witness :
    Sum.inl 1 ∉ (semigroupTreeInit [5, 5, 7] (fun _ b => b) (fun x : Nat => x) 9).decomps ∧
    (∀ k, Sum.inl k ∈ (semigroupTreeInit [5, 5, 7] (fun _ b => b)
        (fun x : Nat => x) 9).decomps ↔
      k < [5, 5, 7].length ∧ ∀ j', j' < k →
        ([5, 5, 7].get? j').map (fun x : Nat => x) ≠
          ([5, 5, 7].get? k).map (fun x : Nat => x)) ∧
    (leafTags (semigroupTreeInit [5, 5, 7] (fun _ b => b) (fun x : Nat => x) 9)).Nodup :=
  C8_duplicate_generators [5, 5, 7] (fun _ b => b) (fun x : Nat => x) 9 1 0
    (by decide) (by decide) (by decide)

lemma nodup_length_le [DecidableEq H] {l : List H} {S : Finset H} (hnd : l.Nodup)
    (hsub : ∀ x ∈ l, x ∈ S) : l.length ≤ S.card := by
  rw [← List.toFinset_card_of_nodup hnd]
  exact Finset.card_le_card (fun x hx => hsub x (List.mem_toFinset.1 hx))

lemma phase1_members_pred [DecidableEq H] (mh : G → H) (P : G → Prop) :
    ∀ (gs : List G) (idx : Nat) (st : SGState G H),
      (∀ m ∈ st.members, P m) → (∀ g ∈ gs, P g) →
      ∀ m ∈ (phase1 mh gs idx st).members, P m
  | [], _, _, hst, _ => hst
  | g :: gs, idx, st, hst, hgs => by
    rw [phase1]
    refine phase1_members_pred mh P gs (idx + 1) _ ?_ (fun g' hg' => hgs g' (by simp [hg']))
    unfold addGen
    split
    · exact hst
    · intro m hm
      simp only [List.mem_append, List.mem_singleton] at hm
      rcases hm with hm | hm
      · exact hst m hm
      · subst hm
        exact hgs m (by simp)

lemma innerLoop_closInv [DecidableEq H] {gens : List G} {func : G → G → G} {mh : G → H}
    {gen : G} (hg : gen ∈ gens) (genNode : Nat) :
    ∀ (fuel i : Nat) (st : SGState G H), ClosInv gens func mh st →
      ClosInv gens func mh (innerLoop func mh gen genNode fuel i st)
  | 0, _, _, hst => hst
  | fuel + 1, i, st, hst => by
    rw [innerLoop_succ]
    split
    · rename_i hlt
      split
      · exact innerLoop_closInv hg genNode fuel (i + 1) st hst
      · rename_i hnew
        refine innerLoop_closInv hg genNode fuel (i + 1) _ ⟨⟨?_, ?_⟩, ?_⟩
        · simp [hst.1.1]
        · simp only [List.nodup_append, List.nodup_cons, List.nodup_nil]
          refine ⟨hst.1.2, by simp, ?_⟩
          intro a ha hb
          simp only [List.mem_singleton] at hb
          subst hb
          exact hnew ha
        · intro m hm
          simp only [List.mem_append, List.mem_singleton] at hm
          rcases hm with hm | hm
          · exact hst.2 m hm
          · subst hm
            exact InClosure.app gen _ hg (hst.2 _ (List.getElem_mem hlt))
    · exact hst

lemma innerLoop_fuel_eq [DecidableEq H] {gens : List G} {func : G → G → G} {mh : G → H}
    {S : Finset H} (hS : ∀ x, InClosure gens func x → mh x ∈ S)
    {gen : G} (hg : gen ∈ gens) (genNode : Nat) :
    ∀ (fuel k i : Nat) (st : SGState G H), ClosInv gens func mh st →
      i ≤ st.members.length →
      (st.members.length - i) + (S.card - st.seen.length) ≤ fuel →
      innerLoop func mh gen genNode (fuel + k) i st =
        innerLoop func mh gen genNode fuel i st
  | 0, k, i, st, _, hile, hfuel => by
    have hlen : st.members.length ≤ i := by omega
    cases k with
    | zero => rfl
    | succ k =>
      rw [Nat.zero_add, innerLoop_succ]
      rw [dif_neg (by omega)]
      rfl
  | fuel + 1, k, i, st, hst, hile, hfuel => by
    have hre : fuel + 1 + k = (fuel + k) + 1 := by omega
    rw [hre, innerLoop_succ, innerLoop_succ]
    split
    · rename_i hlt
      split
      · -- product already seen: state unchanged
        exact innerLoop_fuel_eq hS hg genNode fuel k (i + 1) st hst (by omega) (by omega)
      · rename_i hnew
        have hseenS : ∀ x ∈ st.seen ++ [mh (func gen st.members[i])], x ∈ S := by
          intro x hx
          simp only [List.mem_append, List.mem_singleton] at hx
          rcases hx with hx | hx
          · rw [hst.1.1] at hx
            obtain ⟨m, hm, rfl⟩ := List.mem_map.1 hx
            exact hS m (hst.2 m hm)
          · subst hx
            exact hS _ (InClosure.app gen _ hg (hst.2 _ (List.getElem_mem hlt)))
        have hnd : (st.seen ++ [mh (func gen st.members[i])]).Nodup := by
          simp only [List.nodup_append, List.nodup_cons, List.nodup_nil]
          refine ⟨hst.1.2, by simp, ?_⟩
          intro a ha hb
          simp only [List.mem_singleton] at hb
          subst hb
          exact hnew ha
        have hcard : st.seen.length + 1 ≤ S.card := by
          have := nodup_length_le hnd hseenS
          simpa using this
        refine innerLoop_fuel_eq hS hg genNode fuel k (i + 1) _ ⟨⟨?_, hnd⟩, ?_⟩
          (by simp; omega) (by simp; omega)
        · simp [hst.1.1]
        · intro m hm
          simp only [List.mem_append, List.mem_singleton] at hm
          rcases hm with hm | hm
          · exact hst.2 m hm
          · subst hm
            exact InClosure.app gen _ hg (hst.2 _ (List.getElem_mem hlt))
    · rfl

lemma outerLoop_fuel_eq [DecidableEq H] {gens : List G} {func : G → G → G} {mh : G → H}
    {S : Finset H} (hS : ∀ x, InClosure gens func x → mh x ∈ S) :
    ∀ (ps : List (Nat × G)) (k : Nat) (st : SGState G H), ClosInv gens func mh st →
      (∀ p ∈ ps, p.2 ∈ gens) →
      outerLoop func mh (S.card + k) ps st = outerLoop func mh S.card ps st
  | [], _, _, _, _ => rfl
  | p :: ps, k, st, hst, hps => by
    have hg : p.2 ∈ gens := hps p (by simp)
    have hlen : st.seen.length = st.members.length := by
      rw [hst.1.1, List.length_map]
    have hcard : st.seen.length ≤ S.card := by
      refine nodup_length_le hst.1.2 ?_
      intro x hx
      rw [hst.1.1] at hx
      obtain ⟨m, hm, rfl⟩ := List.mem_map.1 hx
      exact hS m (hst.2 m hm)
    have hinner : innerLoop func mh p.2 p.1 (S.card + k) 0 st =
        innerLoop func mh p.2 p.1 S.card 0 st :=
      innerLoop_fuel_eq hS hg p.1 S.card k 0 st hst (by omega) (by omega)
    rw [outerLoop, outerLoop, hinner]
    exact outerLoop_fuel_eq hS ps k _
      (innerLoop_closInv hg p.1 S.card 0 st hst)
      (fun q hq => hps q (by simp [hq]))

/-- C7: if the closure of the generator list under the operation has finitely
many distinct canonical forms (all contained in a finite set `S`), then the
construction reaches a fixed point: every fuel of at least `S.card` per inner
loop yields the same final state, i.e. the Python `while` loop terminates. -/
theorem C7_finite_closure_terminates [DecidableEq H] (gens : List G) (func : G → G → G)
    (mh : G → H) (S : Finset H) (hS : ∀ x, InClosure gens func x → mh x ∈ S) :
    ∃ F, ∀ fuel, F ≤ fuel →
      semigroupTreeInit gens func mh fuel = semigroupTreeInit gens func mh F := by
  refine ⟨S.card, ?_⟩
  intro fuel hf
  unfold semigroupTreeInit
  split
  · rfl
  · have hcl : ClosInv gens func mh (phase1 mh gens 0 (sgEmpty : SGState G H)) := by
      refine ⟨phase1_seenInv mh gens 0 sgEmpty (seenInv_empty mh), ?_⟩
      refine phase1_members_pred mh (InClosure gens func) gens 0 sgEmpty ?_ ?_
      · intro m hm
        cases hm
      · intro g hg
        exact InClosure.gen g hg
    have hzip : ∀ p ∈ (phase1 mh gens 0 (sgEmpty : SGState G H)).generator_indices.zip gens,
        p.2 ∈ gens := fun p hp => (List.of_mem_zip hp).2
    obtain ⟨k, rfl⟩ : ∃ k, fuel = S.card + k := ⟨fuel - S.card, by omega⟩
    exact outerLoop_fuel_eq hS _ k _ hcl hzip

/-- Witness for C7: the generator list `[1]` under addition modulo 3 has its
closure inside `Finset.range 3`, so the construction stabilizes. -/
theorem C7_finite_closure_terminates_witness :
    ∃ F, ∀ fuel, F ≤ fuel →
      semigroupTreeInit [1] (fun a b => (a + b) % 3) (fun x : Nat => x) fuel =
        semigroupTreeInit [1] (fun a b => (a + b) % 3) (fun x : Nat => x) F := by
  refine C7_finite_closure_terminates [1] (fun a b => (a + b) % 3) (fun x : Nat => x)
    (Finset.range 3) ?_
  intro x hx
  induction hx with
  | gen g hg =>
    rw [List.mem_singleton] at hg
    subst hg
    decide
  | app g y hg hy ih =>
    refine Finset.mem_range.2 ?_
    exact Nat.mod_lt _ (by omega)

lemma expandDerivs_def {V : Type} (vo : ValOps V) (natoms : Nat)
    (samples : List (Nat × V3 × V)) (ops : List (M3 × List Nat))
    (qpsOpt : Option (List (List Nat))) :
    expandDerivs vo natoms samples ops qpsOpt =
      if (List.range natoms).all
          (fun t => coveredB (qpsOpt.getD [] ++ ops.map (fun op => op.2))
            (sampledAtoms samples) t) then
        buildOut (atomDeriv vo samples ops (qpsOpt.getD [])) (List.range natoms)
      else Except.error "symmetry coverage incomplete" := rfl

lemma atomDeriv_def {V : Type} (vo : ValOps V) (samples : List (Nat × V3 × V))
    (ops : List (M3 × List Nat)) (qps : List (List Nat)) (t : Nat) :
    atomDeriv vo samples ops qps t =
      if t ∈ sampledAtoms samples then lsqSolve vo (symSamples vo ops samples t)
      else
        match findQuotientCover qps (sampledAtoms samples) t with
        | some (_, r) => lsqSolve vo (symSamples vo ops samples r)
        | none =>
          match findFullCover ops (sampledAtoms samples) t with
          | some (op, r) =>
            match lsqSolve vo (symSamples vo ops samples r) with
            | Except.error e => Except.error e
            | Except.ok g => Except.ok (rotateGrad vo op.1 g)
          | none => Except.error "symmetry coverage incomplete" := rfl

lemma buildOut_get {V : Type} (f : Nat → Except String (Grad V)) :
    ∀ (ts : List Nat) (out : List (Grad V)), buildOut f ts = Except.ok out →
      ∀ i t, ts.get? i = some t → ∃ g, f t = Except.ok g ∧ out.get? i = some g
  | [], _, _, _, _, hi => by cases hi
  | t' :: ts, out, h, i, t, hi => by
    rw [buildOut] at h
    cases hf : f t' with
    | error e => rw [hf] at h; exact Except.noConfusion h
    | ok g =>
      rw [hf] at h
      cases hb : buildOut f ts with
      | error e => rw [hb] at h; exact Except.noConfusion h
      | ok gs =>
        rw [hb] at h
        cases h
        cases i with
        | zero =>
          have ht : t = t' := by
            simp only [List.get?] at hi
            exact (Option.some.inj hi).symm
          subst ht
          exact ⟨g, hf, rfl⟩
        | succ i => exact buildOut_get f ts gs hb i t hi

lemma findQuotientCover_rep_mem :
    ∀ (qps : List (List Nat)) (reps : List Nat) (t : Nat) (p : List Nat) (r : Nat),
      findQuotientCover qps reps t = some (p, r) → r ∈ reps
  | [], _, _, _, _, h => by cases h
  | q :: rest, reps, t, p, r, h => by
    rw [findQuotientCover] at h
    cases hf : reps.find? (fun r' => q.get? r' == some t) with
    | some r' =>
      rw [hf] at h
      cases h
      exact List.mem_of_find?_eq_some hf
    | none =>
      rw [hf] at h
      exact findQuotientCover_rep_mem rest reps t p r h

unseal Rat.add Rat.mul Rat.sub Rat.inv in
/-- C3: for a single atom under the 3-fold rotation group generated by the
`x -> y -> z -> x` rotation, with displacement samples `(+0.1, 0, 0) -> (1, 0, 0)`
and `(-0.1, 0, 0) -> (-1, 0, 0)` and the one-tensor-axis array callback, the
symmetry expansion returns the derivative tensor `10 * Identity(3×3)` at that
atom (exactly, over the rationals). -/
theorem C3_single_atom_recovery :
    expandDerivs cartVecOps 1 c3Samples c3Ops none =
      Except.ok [⟨⟨10, 0, 0⟩, ⟨0, 10, 0⟩, ⟨0, 0, 10⟩⟩] := by decide

/-- C4: whenever some atom of the structure is the image of no sampled atom
under any supplied quotient or full-group permutation, the expansion fails with
the "symmetry coverage incomplete" error; it never returns a result. -/
theorem C4_unreachable_atom {V : Type} (vo : ValOps V) (natoms : Nat)
    (samples : List (Nat × V3 × V)) (ops : List (M3 × List Nat))
    (quotientPerms : Option (List (List Nat))) (t : Nat) (ht : t < natoms)
    (hun : ∀ p ∈ quotientPerms.getD [] ++ ops.map (fun op => op.2),
      ∀ r ∈ sampledAtoms samples, p.get? r ≠ some t) :
    expandDerivs vo natoms samples ops quotientPerms =
      Except.error "symmetry coverage incomplete" := by
  rw [expandDerivs_def, if_neg]
  intro hall
  rw [List.all_eq_true] at hall
  have hcov := hall t (List.mem_range.2 ht)
  unfold coveredB at hcov
  rw [List.any_eq_true] at hcov
  obtain ⟨p, hp, hr⟩ := hcov
  rw [List.any_eq_true] at hr
  obtain ⟨r, hrm, heq⟩ := hr
  exact hun p hp r hrm (by simpa using heq)

/-- Witness for C4: two atoms, one sample at atom 0, and only the identity
operation; atom 1 is unreachable, so the call errors. -/
theorem C4_unreachable_atom_witness :
    expandDerivs scalarOps 2 [((0 : Nat), (⟨1/10, 0, 0⟩ : V3), (1 : ℚ))]
      [(idM3, [0, 1])] none = Except.error "symmetry coverage incomplete" :=
  C4_unreachable_atom scalarOps 2 [((0 : Nat), (⟨1/10, 0, 0⟩ : V3), (1 : ℚ))]
    [(idM3, [0, 1])] none 1 (by omega) (by decide)

unseal Rat.add Rat.mul Rat.sub Rat.inv in
/-- C5: an unsampled atom covered by a quotient-group permutation receives
exactly the representative's gradient (the same `Except` value, with no
rotation applied); and on the 6-atom two-orbit translational instance of
`test_pure_translation` (atoms 0 and 1 sampled), the expansion returns
identical gradients `(10, 20, 30)` for atoms 0, 2, 4 and `(40, 50, 60)` for
atoms 1, 3, 5. -/
theorem C5_quotient_bitwise_copy :
    (∀ (V : Type) (vo : ValOps V) (natoms : Nat) (samples : List (Nat × V3 × V))
        (ops : List (M3 × List Nat)) (qps : List (List Nat)) (out : List (Grad V))
        (t : Nat) (p : List Nat) (r : Nat),
      expandDerivs vo natoms samples ops (some qps) = Except.ok out →
      t < natoms → t ∉ sampledAtoms samples →
      findQuotientCover qps (sampledAtoms samples) t = some (p, r) →
      r < natoms →
      out.get? t = out.get? r) ∧
    expandDerivs scalarOps 6 c5Samples c5Ops (some c5QuotientPerms) =
      Except.ok [⟨10, 20, 30⟩, ⟨40, 50, 60⟩, ⟨10, 20, 30⟩, ⟨40, 50, 60⟩,
        ⟨10, 20, 30⟩, ⟨40, 50, 60⟩] := by
  constructor
  · intro V vo natoms samples ops qps out t p r hok ht hns hfind hr
    rw [expandDerivs_def] at hok
    rw [show (some qps).getD [] = qps from rfl] at hok
    split at hok
    · have hrep : r ∈ sampledAtoms samples :=
        findQuotientCover_rep_mem qps (sampledAtoms samples) t p r hfind
      obtain ⟨g, hft, hout_t⟩ :=
        buildOut_get _ _ out hok t t (List.get?_range ht)
      obtain ⟨g', hfr, hout_r⟩ :=
        buildOut_get _ _ out hok r r (List.get?_range hr)
      have hft' : atomDeriv vo samples ops qps t =
          lsqSolve vo (symSamples vo ops samples r) := by
        rw [atomDeriv_def, if_neg hns, hfind]
      have hfr' : atomDeriv vo samples ops qps r =
          lsqSolve vo (symSamples vo ops samples r) := by
        rw [atomDeriv_def, if_pos hrep]
      rw [hft'] at hft
      rw [hfr'] at hfr
      have hgg : g = g' := Except.ok.inj (hft.symm.trans hfr)
      rw [hout_t, hout_r, hgg]
    · exact Except.noConfusion hok
  · decide

/-- Witness for C5: on the concrete 6-atom instance, atom 2 is unsampled and
covered by the quotient translation `[2,3,4,5,0,1]` from representative 0, and
its output entry equals atom 0's. -/
theorem C5_quotient_bitwise_copy_witness :
    ∃ out : List (Grad ℚ),
      expandDerivs scalarOps 6 c5Samples c5Ops (some c5QuotientPerms) =
        Except.ok out ∧
      out.get? 2 = out.get? 0 := by
  refine ⟨_, C5_quotient_bitwise_copy.2, ?_⟩
  exact C5_quotient_bitwise_copy.1 ℚ scalarOps 6 c5Samples c5Ops c5QuotientPerms _ 2
    [2, 3, 4, 5, 0, 1] 0 C5_quotient_bitwise_copy.2 (by omega) (by decide) (by decide)
    (by omega)
